import Mathlib

/-!
Verification development for the `email-scraper` repository.

The Python sources are shallowly embedded: text is `List Char`, Python sets
are modelled as insertion-ordered duplicate-free lists, `re` regular
expressions are modelled by a small backtracking engine (`RE` / `mrun` /
`findAll`) whose alternation order, greediness and left-to-right scanning
mirror CPython's `re` module, and fallible code returns `Option`.
-/

namespace EmailScraper

/-! ### Basic string helpers (models of Python `str` methods, ASCII range) -/

/-- Model of Python's `str.lower` for the ASCII range (every character the
scraper's regexes can produce is ASCII). -/
def asciiLower (c : Char) : Char :=
  if 'A' ≤ c ∧ c ≤ 'Z' then Char.ofNat (c.toNat + 32) else c

/-- Lower-case every character: model of `str.lower()`. -/
def pyLower (s : List Char) : List Char := s.map asciiLower

/-- The characters Python's `str.strip()` (and the regex class `\s`) treat as
whitespace, restricted to ASCII. -/
def wsChars : List Char := [' ', '\t', '\n', '\x0b', '\x0c', '\r']

def pyIsSpace (c : Char) : Bool := wsChars.contains c

/-- Model of Python's `str.strip()` (ASCII whitespace). -/
def pyStrip (s : List Char) : List Char :=
  ((s.dropWhile pyIsSpace).reverse.dropWhile pyIsSpace).reverse

/-- Does `s` start with `p`?  Model of `str.startswith`. -/
def startsList (p s : List Char) : Bool := s.take p.length == p

/-- Does `s` end with `p`?  Model of `str.endswith`. -/
def endsList (p s : List Char) : Bool := startsList p.reverse s.reverse

/-- Does `s` contain `p` as a contiguous substring?  Model of Python `in`. -/
def hasSub (p : List Char) : List Char → Bool
  | [] => p.isEmpty
  | c :: rest => startsList p (c :: rest) || hasSub p rest

/-- One step list of `str.replace`: replaces every non-overlapping occurrence
of `pat` left to right.  Fueled; the fuel `s.length` always suffices because
each step consumes at least one character. -/
def pyReplaceGo (pat rep : List Char) : Nat → List Char → List Char
  | 0, s => s
  | _ + 1, [] => []
  | f + 1, c :: rest =>
    if startsList pat (c :: rest) then
      rep ++ pyReplaceGo pat rep f ((c :: rest).drop pat.length)
    else
      c :: pyReplaceGo pat rep f rest

/-- Model of Python's `str.replace(pat, rep)`.  The program never calls it
with an empty pattern, so that case just returns `s`. -/
def pyReplace (s pat rep : List Char) : List Char :=
  if pat.isEmpty then s else pyReplaceGo pat rep s.length s

/-- Insertion-ordered deduplication: the membership model of a Python `set`
built by successive `add`/`update` calls. -/
def dedupKeepFirst : List (List Char) → List (List Char) :=
  go []
where
  go (seen : List (List Char)) : List (List Char) → List (List Char)
    | [] => []
    | x :: xs => if seen.contains x then go seen xs else x :: go (x :: seen) xs

/-! ### A small backtracking regex engine

`mrun` enumerates, in CPython's backtracking order, the ways a regex can
match a prefix of the input: alternatives are tried left to right and `star`
is greedy (the consuming branch comes first).  The head of the enumeration is
therefore exactly the match Python's `re` engine returns at that position.
`\b` needs the character to the left of the current position, threaded
through as `prev`. -/

inductive RE : Type where
  | eps : RE
  | wb : RE
  | cls : List Char → RE
  | lit : Char → RE
  | seq : RE → RE → RE
  | alt : RE → RE → RE
  | star : RE → RE
  | grp : Nat → RE → RE
deriving Repr

/-- `x+` as `x x*`. -/
def rePlus (a : RE) : RE := .seq a (.star a)

/-- `x{2,}` as `x x+`. -/
def reRep2 (a : RE) : RE := .seq a (rePlus a)

def reSize : RE → Nat
  | .eps => 1
  | .wb => 1
  | .cls _ => 1
  | .lit _ => 1
  | .seq a b => reSize a + reSize b + 1
  | .alt a b => reSize a + reSize b + 1
  | .star a => reSize a + 1
  | .grp _ a => reSize a + 1

/-- Word characters for `\b` (ASCII, matching the ASCII inputs in play). -/
def wordChar (c : Char) : Bool := c.isAlpha || c.isDigit || c == '_'

/-- The character just left of the current position after consuming `t`. -/
def lastOf (prev : Option Char) (t : List Char) : Option Char :=
  match t.getLast? with
  | some c => some c
  | none => prev

/-- One result of a regex run: consumed text, remaining input, captures. -/
abbrev MRes := List Char × List Char × List (Nat × List Char)

/-- Enumerate matches of `e` at the start of `s` in backtracking order.
`prev` is the character left of the position (for `\b`).  `star` only
iterates when its body consumed input, which is always the case for the
patterns in this program (their starred bodies are character classes). -/
def mrun : Nat → RE → Option Char → List Char → List MRes
  | 0, _, _, _ => []
  | _ + 1, .eps, _, s => [([], s, [])]
  | _ + 1, .wb, prev, s =>
    let lw := match prev with | none => false | some c => wordChar c
    let rw := match s with | [] => false | c :: _ => wordChar c
    if lw != rw then [([], s, [])] else []
  | _ + 1, .cls _, _, [] => []
  | _ + 1, .cls p, _, c :: rest => if p.contains c then [([c], rest, [])] else []
  | _ + 1, .lit _, _, [] => []
  | _ + 1, .lit a, _, c :: rest => if c == a then [([c], rest, [])] else []
  | f + 1, .seq a b, prev, s =>
    (mrun f a prev s).flatMap fun r =>
      (mrun f b (lastOf prev r.1) r.2.1).map fun q =>
        (r.1 ++ q.1, q.2.1, r.2.2 ++ q.2.2)
  | f + 1, .alt a b, prev, s => mrun f a prev s ++ mrun f b prev s
  | f + 1, .star a, prev, s =>
    ((mrun f a prev s).flatMap fun r =>
      if r.2.1.length < s.length then
        (mrun f (.star a) (lastOf prev r.1) r.2.1).map fun q =>
          (r.1 ++ q.1, q.2.1, r.2.2 ++ q.2.2)
      else []) ++ [([], s, [])]
  | f + 1, .grp i a, prev, s =>
    (mrun f a prev s).map fun r => (r.1, r.2.1, (i, r.1) :: r.2.2)

/-- Ample fuel for `mrun`: the recursion depth of a run of `e` on `s` is
bounded by `(reSize e + 2) * (s.length + 2)`. -/
def fuelFor (e : RE) (s : List Char) : Nat := (reSize e + 2) * (s.length + 2)

/-- The match Python's engine returns at this position, if any. -/
def firstMatch (e : RE) (prev : Option Char) (s : List Char) : Option MRes :=
  (mrun (fuelFor e s) e prev s).head?

/-- Left-to-right non-overlapping scan: model of `re.findall`.  At each
position the first (backtracking-order) match is taken and the scan resumes
after it; on failure the scan advances one character. -/
def findAllAux : Nat → RE → Option Char → List Char → List (List Char × List (Nat × List Char))
  | 0, _, _, _ => []
  | _ + 1, e, prev, [] =>
    match firstMatch e prev [] with
    | some r => [(r.1, r.2.2)]
    | none => []
  | f + 1, e, prev, c :: rest =>
    match firstMatch e prev (c :: rest) with
    | none => findAllAux f e (some c) rest
    | some r =>
      if r.1.isEmpty then (r.1, r.2.2) :: findAllAux f e (some c) rest
      else (r.1, r.2.2) :: findAllAux f e (lastOf prev r.1) r.2.1

def findAll (e : RE) (s : List Char) : List (List Char × List (Nat × List Char)) :=
  findAllAux (s.length + 1) e none s

/-! ### The regex patterns of `EmailExtractor`

All `re.findall` calls in `extract_emails` pass `re.IGNORECASE`, so each
character class below contains both cases and literal letters become
two-element classes. -/

def asciiUpper (c : Char) : Char :=
  if 'a' ≤ c ∧ c ≤ 'z' then Char.ofNat (c.toNat - 32) else c

/-- A literal character under `re.IGNORECASE`. -/
def ciChar (c : Char) : RE :=
  if c.isAlpha then .cls [asciiLower c, asciiUpper c] else .lit c

/-- A literal string under `re.IGNORECASE`. -/
def ciStr : List Char → RE
  | [] => .eps
  | [c] => ciChar c
  | c :: rest => .seq (ciChar c) (ciStr rest)

/-- `[A-Za-z0-9._%+-]` (also `[a-z0-9._%+-]` + IGNORECASE). -/
def localChars : List Char :=
  "ABCDEFGHIJKLMNOPQRSTUVWXYZabcdefghijklmnopqrstuvwxyz0123456789._%+-".data

/-- `[A-Za-z0-9.-]` (also `[a-z0-9.-]` + IGNORECASE). -/
def domainChars : List Char :=
  "ABCDEFGHIJKLMNOPQRSTUVWXYZabcdefghijklmnopqrstuvwxyz0123456789.-".data

/-- `[A-Z|a-z]` — note the literal `|` inside the class, as in the source. -/
def tldPipeChars : List Char :=
  "ABCDEFGHIJKLMNOPQRSTUVWXYZ|abcdefghijklmnopqrstuvwxyz".data

/-- `[a-z]` + IGNORECASE. -/
def tldAlphaChars : List Char :=
  "ABCDEFGHIJKLMNOPQRSTUVWXYZabcdefghijklmnopqrstuvwxyz".data

def wsStar : RE := .star (.cls wsChars)

def wsPlus : RE := rePlus (.cls wsChars)

/-- `EMAIL_PATTERN = r'\b[A-Za-z0-9._%+-]+@[A-Za-z0-9.-]+\.[A-Z|a-z]{2,}\b'` -/
def emailRE : RE :=
  .seq .wb (.seq (rePlus (.cls localChars)) (.seq (.lit '@')
    (.seq (rePlus (.cls domainChars)) (.seq (.lit '.')
      (.seq (reRep2 (.cls tldPipeChars)) .wb)))))

/-- `(?:\[at\]|@|\(at\)|\[a\])` -/
def atAlts : RE :=
  .alt (ciStr "[at]".data) (.alt (.lit '@') (.alt (ciStr "(at)".data) (ciStr "[a]".data)))

/-- `(?:\[dot\]|\.|\.|\(dot\))` — the source repeats the `\.` alternative. -/
def dotAlts : RE :=
  .alt (ciStr "[dot]".data) (.alt (.lit '.') (.alt (.lit '.') (ciStr "(dot)".data)))

/-- `TEXT_EMAIL_PATTERN =
`r'\b([a-z0-9._%+-]+)\s*(?:\[at\]|@|\(at\)|\[a\])\s*([a-z0-9.-]+)\s*(?:\[dot\]|\.|\.|\(dot\))\s*([a-z]{2,})\b'` -/
def textRE : RE :=
  .seq .wb (.seq (.grp 1 (rePlus (.cls localChars))) (.seq wsStar (.seq atAlts
    (.seq wsStar (.seq (.grp 2 (rePlus (.cls domainChars))) (.seq wsStar
      (.seq dotAlts (.seq wsStar (.seq (.grp 3 (reRep2 (.cls tldAlphaChars))) .wb)))))))))

/-- `spaced_pattern = r'\b([a-z0-9._%+-]+)\s*@\s*([a-z0-9.-]+)\s*\.\s*([a-z]{2,})\b'` -/
def spacedRE : RE :=
  .seq .wb (.seq (.grp 1 (rePlus (.cls localChars))) (.seq wsStar (.seq (.lit '@')
    (.seq wsStar (.seq (.grp 2 (rePlus (.cls domainChars))) (.seq wsStar
      (.seq (.lit '.') (.seq wsStar (.seq (.grp 3 (reRep2 (.cls tldAlphaChars))) .wb)))))))))

/-- `at_dot_pattern =
`r'\b([a-z0-9._%+-]+)\s+(?:AT|at)\s+([a-z0-9.-]+)\s+(?:DOT|dot)\s+([a-z]{2,})\b'` -/
def atdotRE : RE :=
  .seq .wb (.seq (.grp 1 (rePlus (.cls localChars))) (.seq wsPlus
    (.seq (.alt (ciStr "AT".data) (ciStr "at".data)) (.seq wsPlus
      (.seq (.grp 2 (rePlus (.cls domainChars))) (.seq wsPlus
        (.seq (.alt (ciStr "DOT".data) (ciStr "dot".data)) (.seq wsPlus
          (.seq (.grp 3 (reRep2 (.cls tldAlphaChars))) .wb)))))))))

/-- `f"{match[0]}@{match[1]}.{match[2]}"` built from a findall tuple. -/
def capsEmail (caps : List (Nat × List Char)) : List Char :=
  ((caps.lookup 1).getD []) ++ '@' :: (((caps.lookup 2).getD []) ++ '.' :: ((caps.lookup 3).getD []))

/-! ### `EmailExtractor.extract_emails` -/

/-- The HTML-entity decoding step:
`text.replace('&#64;', '@').replace('&#46;', '.').replace('&#x40;', '@')`. -/
def entityDecode (text : List Char) : List Char :=
  pyReplace (pyReplace (pyReplace text "&#64;".data "@".data) "&#46;".data ".".data)
    "&#x40;".data "@".data

/-- Model of `EmailExtractor.extract_emails`.  The Python function
accumulates candidates into a `set` and finally returns
`{email.lower().strip() for email in emails if email and len(email) > 5}`;
sets are modelled as insertion-ordered duplicate-free lists. -/
def extract_emails (text : List Char) : List (List Char) :=
  if text.isEmpty then []
  else
    let normal := (findAll emailRE text).map (·.1)
    let textBased := (findAll textRE text).map (fun m => capsEmail m.2)
    let spaced := (findAll spacedRE text).map (fun m => capsEmail m.2)
    let decoded := entityDecode text
    let entity := if decoded ≠ text then (findAll emailRE decoded).map (·.1) else []
    let atdot := (findAll atdotRE text).map (fun m => capsEmail m.2)
    let gathered := dedupKeepFirst (normal ++ textBased ++ spaced ++ entity ++ atdot)
    dedupKeepFirst
      ((gathered.filter fun e => !e.isEmpty && decide (e.length > 5)).map
        fun e => pyStrip (pyLower e))

/-- `" ".join(emails)` — used to state the round-trip claim. -/
def joinSpace : List (List Char) → List Char
  | [] => []
  | [e] => e
  | e :: rest => e ++ ' ' :: joinSpace rest

/-! ### `EmailExtractor.decode_cloudflare_email`

`int(s, 16)` is modelled by `pyIntHex` (optional surrounding whitespace,
optional sign, optional `0x` marker, hex digits with single underscores
between them), Python's signed integer xor by `pyXor` (two's complement),
and `chr` by a range check; the decoded result is a list of code points so
that surrogate values (which Python `chr` accepts) need no `Char` proof. -/

def hexVal (c : Char) : Option Nat :=
  if '0' ≤ c ∧ c ≤ '9' then some (c.toNat - 48)
  else if 'a' ≤ c ∧ c ≤ 'f' then some (c.toNat - 87)
  else if 'A' ≤ c ∧ c ≤ 'F' then some (c.toNat - 55)
  else none

/-- Hex digits with single underscores between digits (`1_2` parses, `1_`,
`_1` and `1__2` do not), accumulating the value. -/
def hexDigitsRest (acc : Nat) : List Char → Option Nat
  | [] => some acc
  | '_' :: c :: rest =>
    match hexVal c with
    | some v => hexDigitsRest (16 * acc + v) rest
    | none => none
  | c :: rest =>
    match hexVal c with
    | some v => hexDigitsRest (16 * acc + v) rest
    | none => none

def hexDigits : List Char → Option Nat
  | [] => none
  | '_' :: _ => none
  | c :: rest =>
    match hexVal c with
    | some v => hexDigitsRest v rest
    | none => none

/-- Strip the optional `0x` / `0X` base marker accepted by `int(s, 16)`
(an underscore may follow the marker). -/
def dropHexMark : List Char → List Char
  | '0' :: 'x' :: '_' :: rest => rest
  | '0' :: 'x' :: rest => rest
  | '0' :: 'X' :: '_' :: rest => rest
  | '0' :: 'X' :: rest => rest
  | s => s

/-- The characters `int(s, 16)` can accept anywhere in its input: hex
digits, whitespace, sign characters, the base-marker letters and
underscores. -/
def intHexAcceptable (c : Char) : Bool :=
  (hexVal c).isSome || pyIsSpace c || c = '+' || c = '-' || c = '_' || c = 'x' || c = 'X'

/-- Model of Python `int(s, 16)`: `none` models the `ValueError`. -/
def pyIntHex (s : List Char) : Option Int :=
  match pyStrip s with
  | '+' :: rest => (hexDigits (dropHexMark rest)).map Int.ofNat
  | '-' :: rest => (hexDigits (dropHexMark rest)).map (fun n => -(Int.ofNat n))
  | rest => (hexDigits (dropHexMark rest)).map Int.ofNat

/-- Python's xor on arbitrary-precision signed integers (two's complement). -/
def pyXor : Int → Int → Int
  | .ofNat a, .ofNat b => .ofNat (a ^^^ b)
  | .ofNat a, .negSucc b => .negSucc (a ^^^ b)
  | .negSucc a, .ofNat b => .negSucc (a ^^^ b)
  | .negSucc a, .negSucc b => .ofNat (a ^^^ b)

/-- `encoded[i:i+2] for i in range(2, len(encoded), 2)`: two-character chunks
of the tail, the last possibly a single character. -/
def chunksOf2 : List Char → List (List Char)
  | [] => []
  | [a] => [[a]]
  | a :: b :: rest => [a, b] :: chunksOf2 rest

/-- `chr(int(chunk, 16) ^ r)` for every chunk; `none` models any exception
(`ValueError` from `int` or from `chr` on an out-of-range value). -/
def decodeChunks (r : Int) : List (List Char) → Option (List Nat)
  | [] => some []
  | ch :: rest =>
    match pyIntHex ch with
    | none => none
    | some v =>
      let x := pyXor v r
      if 0 ≤ x ∧ x < 1114112 then (decodeChunks r rest).map (x.toNat :: ·)
      else none

/-- Model of `EmailExtractor.decode_cloudflare_email`: the `try` body decodes
the chunks, the bare `except` turns any failure into the empty string.  The
result is the list of decoded code points (`[]` models `""`). -/
def decode_cloudflare_email (encoded : List Char) : List Nat :=
  match pyIntHex (encoded.take 2) with
  | none => []
  | some r => (decodeChunks r (chunksOf2 (encoded.drop 2))).getD []

/-! ### Config constants and `EmailExtractor.is_valid_business_email` -/

/-- `config.BLACKLISTED_DOMAINS`. -/
def BLACKLISTED_DOMAINS : List (List Char) :=
  ["gmail.com".data, "hotmail.com".data, "outlook.com".data, "yahoo.com".data,
   "yandex.com".data, "mail.ru".data, "protonmail.com".data, "icloud.com".data,
   "liand.com".data, "msn.com".data, "aol.com".data, "inbox.com".data,
   "gmx.com".data, "zoho.com".data, "mail.com".data, "tutanota.com".data,
   "sentry.wixpress.com".data, "sentry-next.wixpress.com".data, "wixpress.com".data,
   "wix.com".data, "example.com".data, "test.com".data, "localhost".data, "domain.com".data,
   "email.com".data, "yourdomain.com".data, "yoursite.com".data,
   "4x.png".data, "2x.png".data, "3x.png".data, ".png".data, ".jpg".data, ".gif".data,
   "sentry.io".data, "sentry-cdn.com".data]

/-- `config.EXAMPLE_EMAILS`. -/
def EXAMPLE_EMAILS : List (List Char) :=
  ["utilisateur@domaine.com".data, "example@example.com".data, "info@example.com".data,
   "contact@example.com".data, "test@test.com".data, "email@email.com".data,
   "your@email.com".data, "youremail@domain.com".data, "name@domain.com".data]

def systemKeywords : List (List Char) :=
  ["sentry".data, "wixpress".data, "wix.com".data, "sentry.io".data]

def fileExtensions : List (List Char) :=
  [".png".data, ".jpg".data, ".jpeg".data, ".gif".data, ".svg".data, ".webp".data,
   ".css".data, ".js".data, ".html".data, ".php".data]

def hexLowerChars : List Char := "0123456789abcdef".data

/-- `email.split('@')` unpacked into exactly two parts; `none` models the
`ValueError` of a tuple unpack with the wrong arity. -/
def splitAtSign (e : List Char) : Option (List Char × List Char) :=
  match e.splitOn '@' with
  | [lp, dom] => some (lp, dom)
  | _ => none

/-- Model of `EmailExtractor.is_valid_business_email`. -/
def is_valid_business_email (email : List Char) : Bool :=
  let e := pyStrip (pyLower email)
  if e.length < 6 || e.length > 100 then false
  else if EXAMPLE_EMAILS.contains e then false
  else
    match splitAtSign e with
    | none => false
    | some (localPart, domain) =>
      if BLACKLISTED_DOMAINS.contains domain then false
      else if systemKeywords.any (fun k => hasSub k (pyLower domain)) then false
      else if fileExtensions.any (fun x => endsList x e || endsList x domain) then false
      else if decide (localPart.length ≥ 24) && localPart.all (hexLowerChars.contains ·) then false
      else if !domain.contains '.' then false
      else if decide (domain.length > 40) then false
      else true

/-- `priority_prefixes = ['info@', 'contact@', 'sales@', 'commercial@']`. -/
def priorityMarks : List (List Char) :=
  ["info@".data, "contact@".data, "sales@".data, "commercial@".data]

def hasPriorityMark (e : List Char) : Bool :=
  priorityMarks.any (fun p => startsList p e)

/-- Model of `EmailExtractor.filter_valid_emails`: keep the valid candidates
and move the `info@`/`contact@`/`sales@`/`commercial@` ones to the front,
preserving relative order within each block. -/
def filter_valid_emails (emails : List (List Char)) : List (List Char) :=
  let valid := emails.filter is_valid_business_email
  if valid.isEmpty then []
  else
    let parts := valid.partition hasPriorityMark
    parts.1 ++ parts.2

/-- Model of `EmailExtractor.get_best_email` (`[]` models `""`). -/
def get_best_email (emails : List (List Char)) : List Char :=
  match filter_valid_emails emails with
  | best :: _ => best
  | [] => []

/-! ### `PageDetector`

URLs stay plain character lists.  `netloc` models `urlparse(u).netloc` and
`urljoinModel` models `urllib.parse.urljoin` for the URL shapes a crawl
produces: absolute URLs (returned as-is), network-relative `//…`,
root-relative `/…`, and plain relative references resolved against the base
path. -/

/-- The text after the first `"://"`, if any. -/
def afterSchemeSep : List Char → Option (List Char)
  | [] => none
  | c :: rest =>
    if startsList "://".data (c :: rest) then some ((c :: rest).drop 3)
    else afterSchemeSep rest

def endOfAuthority (c : Char) : Bool := c = '/' || c = '?' || c = '#'

/-- Model of `urlparse(u).netloc`. -/
def netloc (u : List Char) : List Char :=
  match afterSchemeSep u with
  | some t => t.takeWhile (fun c => !endOfAuthority c)
  | none =>
    if startsList "//".data u then (u.drop 2).takeWhile (fun c => !endOfAuthority c)
    else []

/-- The scheme of an absolute URL (`http` in `http://…`), `[]` otherwise. -/
def schemeOf (u : List Char) : List Char :=
  if hasSub "://".data u then u.takeWhile (· ≠ ':') else []

/-- `scheme://netloc` of an absolute URL. -/
def schemeNetloc (u : List Char) : List Char :=
  schemeOf u ++ "://".data ++ netloc u

/-- The base URL up to and including the last `/` of its path (the reference
resolution context for relative links). -/
def baseDir (u : List Char) : List Char :=
  let path := match afterSchemeSep u with
    | some t => t.dropWhile (fun c => !endOfAuthority c)
    | none => u
  if path.contains '/' then
    u.take (u.length - ((path.reverse.takeWhile (· ≠ '/')).length))
  else u ++ "/".data

/-- Model of `urllib.parse.urljoin(base, url)` for the cases exercised here. -/
def urljoinModel (base url : List Char) : List Char :=
  if hasSub "://".data url then url
  else if startsList "//".data url then schemeOf base ++ ':' :: url
  else if startsList "/".data url then schemeNetloc base ++ url
  else if url.isEmpty then base
  else baseDir base ++ url

/-- Model of `PageDetector._is_same_domain` (the `except` branch is
unreachable because the embedded `urlparse` is total). -/
def is_same_domain (u1 u2 : List Char) : Bool := netloc u1 == netloc u2

/-- An `<a href=…>` element: the parts of the soup the detector reads. -/
structure Link where
  href : List Char
  anchorText : List Char

/-- `CONTACT_PAGE_KEYWORDS` flattened across languages in dict order. -/
def contactKeywords : List (List Char) :=
  ["withtisim".data, "withtişim".data, "bize-ulasin".data, "bize-ulaşın".data,
   "contact".data, "contactez".data, "kontakt".data,
   "contact".data, "contact-us".data, "reach-us".data, "get-in-touch".data,
   "contact".data, "contactez".data, "contactez-nous".data, "nous-contacter".data,
   "kontakt".data, "kontaktieren".data, "kontaktiere-uns".data,
   "contacto".data, "contactar".data, "contactenos".data,
   "contatto".data, "contattaci".data, "contatti".data,
   "اتصل".data, "تواصل".data, "contact".data,
   "contato".data, "contacto".data, "fale-conosco".data,
   "contact".data, "contacteer".data, "neem-contact-op".data,
   "kontakt".data, "skontaktuj".data,
   "контакт".data, "связаться".data, "contact".data]

/-- `ABOUT_PAGE_KEYWORDS` flattened across languages in dict order. -/
def aboutKeywords : List (List Char) :=
  ["hakkimizda".data, "hakkımızda".data, "hakkinda".data, "kurumsal".data, "about".data,
   "about".data, "about-us".data, "who-we-are".data, "our-story".data, "company".data,
   "a-propos".data, "qui-sommes-nous".data, "notre-histoire".data, "about".data,
   "uber-uns".data, "über-uns".data, "about".data, "unternehmen".data,
   "sobre-nosotros".data, "quienes-somos".data, "acerca".data, "about".data,
   "chi-siamo".data, "about".data, "la-nostra-storia".data,
   "من نحن".data, "عن الشركة".data, "about".data,
   "sobre".data, "sobre-nos".data, "quem-somos".data, "about".data,
   "oandr-ons".data, "about".data, "wie-zijn-we".data,
   "o-nas".data, "about".data,
   "о-нас".data, "о-компании".data, "about".data]

/-- One loop iteration of `_find_pages_by_keywords`: the first matching
keyword (if any) triggers the join + same-domain check, then `break`. -/
def addFoundLink (base : List Char) (keywords : List (List Char))
    (acc : List (List Char)) (lk : Link) : List (List Char) :=
  let href := pyLower lk.href
  let txt := pyStrip (pyLower lk.anchorText)
  match keywords.find? (fun kw => hasSub (pyLower kw) href || hasSub (pyLower kw) txt) with
  | some _ =>
    let full := urljoinModel base lk.href
    if is_same_domain base full && !acc.contains full then acc ++ [full] else acc
  | none => acc

/-- Model of `PageDetector._find_pages_by_keywords` (the `found_urls` set is
an insertion-ordered duplicate-free list; at most three results). -/
def find_pages_by_keywords (links : List Link) (base : List Char)
    (keywords : List (List Char)) : List (List Char) :=
  (links.foldl (addFoundLink base keywords) []).take 3

/-- Model of `PageDetector.find_contact_pages`. -/
def find_contact_pages (links : List Link) (base : List Char) : List (List Char) :=
  find_pages_by_keywords links base contactKeywords

/-- Model of `PageDetector.find_about_pages`. -/
def find_about_pages (links : List Link) (base : List Char) : List (List Char) :=
  find_pages_by_keywords links base aboutKeywords

/-! ### `EmailFinder` -/

def standard_prefixes : List (List Char) :=
  ["info".data, "contact".data, "hello".data, "mail".data, "office".data,
   "support".data, "sales".data, "admin".data, "service".data,
   "communication".data, "general".data, "inquiry".data, "welcome".data]

def french_prefixes : List (List Char) :=
  ["contact".data, "info".data, "commercial".data, "accueil".data,
   "direction".data, "vente".data, "service.client".data]

def german_prefixes : List (List Char) :=
  ["info".data, "kontakt".data, "office".data, "verwaltung".data]

def spanish_prefixes : List (List Char) :=
  ["info".data, "contacto".data, "oficina".data, "ventas".data]

def turkish_prefixes : List (List Char) :=
  ["info".data, "iletisim".data, "destek".data, "satis".data]

/-- The loop `for suffix in ['ltd','inc','llc','sa','sas','gmbh','ag']:
clean_name = clean_name.replace(suffix, '').strip()` applied to
`company_name.lower().strip()`. -/
def cleanCompanyName (name : List Char) : List Char :=
  (["ltd".data, "inc".data, "llc".data, "sa".data, "sas".data, "gmbh".data,
    "ag".data]).foldl (fun n suf => pyStrip (pyReplace n suf [])) (pyStrip (pyLower name))

/-- Model of `EmailFinder.generate_common_patterns`. -/
def generate_common_patterns (domain company_name : List Char) : List (List Char) :=
  let d := pyStrip (pyLower domain)
  let prefs := standard_prefixes
    ++ (if endsList ".fr".data d then french_prefixes else [])
    ++ (if endsList ".de".data d then german_prefixes else [])
    ++ (if endsList ".es".data d then spanish_prefixes else [])
    ++ (if endsList ".tr".data d then turkish_prefixes else [])
  let patterns := prefs.map (fun p => p ++ '@' :: d)
  if !company_name.isEmpty then
    let clean := cleanCompanyName company_name
    if !clean.isEmpty then
      (pyReplace clean " ".data ".".data ++ '@' :: d) ::
        (pyReplace clean " ".data [] ++ '@' :: d) :: patterns
    else patterns
  else patterns

/-- Model of `EmailFinder._clean_domain`; `parsed.netloc or parsed.path`
falls back to the input when the parsed netloc is empty, which matches the
URL shapes the branch can receive. -/
def clean_domain (s : List Char) : List Char :=
  if s.isEmpty then []
  else
    let u := pyLower (pyStrip s)
    let dom :=
      if hasSub "://".data u || startsList "www.".data u then
        let t := if !startsList "http".data u then "http://".data ++ u else u
        let nl := netloc t
        if nl.isEmpty then u else nl
      else u
    let dom2 := pyReplace dom "www.".data []
    (dom2.takeWhile (· ≠ '/')).takeWhile (· ≠ '?')

/-- Model of `EmailFinder.find_email_enhanced`.  The WHOIS layer performs
network I/O; it is abstracted as the function `whoisEmails` (a model of
`extract_whois_emails`), which the result may consult only in layer 3. -/
def find_email_enhanced (domain company_name : List Char) (scraped : List (List Char))
    (whoisEmails : List Char → List (List Char)) : Option (List Char) × List Char :=
  let d := clean_domain domain
  match scraped.find? (fun e => !e.isEmpty && e.contains '@') with
  | some e => (some e, "scraped".data)
  | none =>
    match generate_common_patterns d company_name with
    | p :: _ => (some p, "pattern".data)
    | [] =>
      match whoisEmails d with
      | w :: _ => (some w, "whois".data)
      | [] => (none, "none".data)

/-! ### `WebScraper`

`_get_page_soup` is modelled as a state machine over scripted attempt
outcomes: attempt `i` of the `for attempt in range(MAX_RETRIES)` loop sees
`outcome i`.  `sslError b` is an `SSLError` from the `verify=True` request
whose immediate `verify=False` retry succeeds iff `b`.  The trace records
every HTTP request (with its `verify` flag) and every `time.sleep`. -/

def MAX_RETRIES : Nat := 3

inductive FetchOutcome : Type where
  | ok : FetchOutcome
  | timeout : FetchOutcome
  | reqError : FetchOutcome
  | sslError : Bool → FetchOutcome
  | otherError : FetchOutcome
deriving DecidableEq, Repr

inductive FetchEvent : Type where
  | request : Bool → FetchEvent
  | sleepSec : Nat → FetchEvent
deriving DecidableEq, Repr

/-- The retry loop of `_get_page_soup`: `i` is the attempt index, the second
argument the attempts remaining.  The Bool result models whether a soup was
returned (`false` models returning `None`). -/
def get_page_soup_loop (outcome : Nat → FetchOutcome) : Nat → Nat → Bool × List FetchEvent
  | _, 0 => (false, [])
  | i, rem + 1 =>
    match outcome i with
    | .ok => (true, [.request true])
    | .timeout =>
      let r := get_page_soup_loop outcome (i + 1) rem
      (r.1, .request true :: .sleepSec 2 :: r.2)
    | .reqError =>
      let r := get_page_soup_loop outcome (i + 1) rem
      (r.1, .request true :: .sleepSec 2 :: r.2)
    | .sslError true => (true, [.request true, .request false])
    | .sslError false =>
      let r := get_page_soup_loop outcome (i + 1) rem
      (r.1, .request true :: .request false :: r.2)
    | .otherError => (false, [.request true])

/-- Model of `WebScraper._get_page_soup`. -/
def get_page_soup (outcome : Nat → FetchOutcome) : Bool × List FetchEvent :=
  get_page_soup_loop outcome 0 MAX_RETRIES

/-- `set.update` on the insertion-ordered set model. -/
def setUnion (a b : List (List Char)) : List (List Char) := dedupKeepFirst (a ++ b)

/-- The shared shape of the two page loops in `scrape_website`: visit each
page, merge its emails into the accumulator, and return early as soon as
`get_best_email` is non-empty. -/
def visitPages (pageEmails : List Char → List (List Char)) :
    List (List Char) → List (List Char) → List (List Char) × Option (List Char)
  | [], acc => (acc, none)
  | u :: rest, acc =>
    let acc' := setUnion acc (pageEmails u)
    let best := get_best_email acc'
    if best.isEmpty then visitPages pageEmails rest acc' else (acc', some best)

/-- Model of `WebScraper.scrape_website`.  Network and HTML parsing are
abstracted: `pageEmails u` is the candidate set `_scrape_page(u)` yields, and
`soupPages` is `None` when the homepage soup could not be fetched, otherwise
the pair of `find_contact_pages` / `find_about_pages` results.  `[]` models
returning `""`. -/
def scrape_website (pageEmails : List Char → List (List Char)) (homeUrl : List Char)
    (soupPages : Option (List (List Char) × List (List Char))) : List Char :=
  let acc0 := setUnion [] (pageEmails homeUrl)
  let b0 := get_best_email acc0
  if !b0.isEmpty then b0
  else
    match soupPages with
    | none => []
    | some (contactPages, aboutPages) =>
      let r1 := visitPages pageEmails (contactPages.take 2) acc0
      match r1.2 with
      | some b => b
      | none =>
        let r2 := visitPages pageEmails (aboutPages.take 1) r1.1
        match r2.2 with
        | some b => b
        | none => []

/-! ### Specification-level notions used to state the claims -/

/-- Every character a regex can consume comes from one of its character
classes or literals; this collects them. -/
def reCharList : RE → List Char
  | .eps => []
  | .wb => []
  | .cls p => p
  | .lit a => [a]
  | .seq a b => reCharList a ++ reCharList b
  | .alt a b => reCharList a ++ reCharList b
  | .star a => reCharList a
  | .grp _ a => reCharList a

/-- The characters that can appear inside capture group `i` of a regex. -/
def grpCharList : RE → Nat → List Char
  | .eps, _ => []
  | .wb, _ => []
  | .cls _, _ => []
  | .lit _, _ => []
  | .seq a b, i => grpCharList a i ++ grpCharList b i
  | .alt a b, i => grpCharList a i ++ grpCharList b i
  | .star a, i => grpCharList a i
  | .grp j a, i => (if i = j then reCharList a else []) ++ grpCharList a i

/-- The local part of an address in the sense of the specification: the text
before the `@`. -/
def localPart (e : List Char) : List Char := e.takeWhile (· ≠ '@')

/-! ## Theorems -/

/-! ### Character and string lemmas -/

theorem asciiLower_toNat (c : Char) :
    (asciiLower c).toNat = if 65 ≤ c.toNat ∧ c.toNat ≤ 90 then c.toNat + 32 else c.toNat := by
  unfold asciiLower
  split
  case isTrue h =>
    have h1 : 65 ≤ c.toNat := h.1
    have h2 : c.toNat ≤ 90 := h.2
    rw [if_pos ⟨h1, h2⟩]
    unfold Char.ofNat
    rw [dif_pos (Or.inl (by omega : c.toNat + 32 < 55296))]
    rfl
  case isFalse h =>
    rw [if_neg (show ¬(65 ≤ c.toNat ∧ c.toNat ≤ 90) from h)]

theorem asciiLower_eq_of_not_upper (c : Char) (h : ¬(65 ≤ c.toNat ∧ c.toNat ≤ 90)) :
    asciiLower c = c := by
  unfold asciiLower
  exact if_neg h

theorem ws_toNat_le (c : Char) (h : pyIsSpace c = true) : c.toNat ≤ 32 := by
  have hm : c ∈ wsChars := by simpa [pyIsSpace] using h
  fin_cases hm <;> decide

theorem not_ws_of_toNat_gt (c : Char) (h : 32 < c.toNat) : pyIsSpace c = false := by
  cases hx : pyIsSpace c
  · rfl
  · exact absurd (ws_toNat_le c hx) (by omega)

theorem asciiLower_isSpace (c : Char) : pyIsSpace (asciiLower c) = pyIsSpace c := by
  by_cases hup : 65 ≤ c.toNat ∧ c.toNat ≤ 90
  · have h1 : (asciiLower c).toNat = c.toNat + 32 := by
      rw [asciiLower_toNat, if_pos hup]
    rw [not_ws_of_toNat_gt _ (by omega), not_ws_of_toNat_gt c (by omega)]
  · rw [asciiLower_eq_of_not_upper c hup]

theorem asciiLower_idem (c : Char) : asciiLower (asciiLower c) = asciiLower c := by
  by_cases hup : 65 ≤ c.toNat ∧ c.toNat ≤ 90
  · have h1 : (asciiLower c).toNat = c.toNat + 32 := by
      rw [asciiLower_toNat, if_pos hup]
    exact asciiLower_eq_of_not_upper _ (by omega)
  · rw [asciiLower_eq_of_not_upper c hup, asciiLower_eq_of_not_upper c hup]

theorem pyLower_idem (s : List Char) : pyLower (pyLower s) = pyLower s := by
  unfold pyLower
  rw [List.map_map]
  exact List.map_congr_left fun a _ => asciiLower_idem a

theorem pyLower_length (s : List Char) : (pyLower s).length = s.length := by
  simp [pyLower]

theorem dropWhile_pyLower (s : List Char) :
    List.dropWhile pyIsSpace (pyLower s) = pyLower (List.dropWhile pyIsSpace s) := by
  induction s with
  | nil => rfl
  | cons c t ih =>
    simp only [pyLower, List.map_cons, List.dropWhile_cons, asciiLower_isSpace]
    split
    · exact ih
    · rfl

theorem pyStrip_pyLower (s : List Char) : pyStrip (pyLower s) = pyLower (pyStrip s) := by
  unfold pyStrip
  rw [dropWhile_pyLower]
  have h1 : (pyLower (List.dropWhile pyIsSpace s)).reverse
      = pyLower ((List.dropWhile pyIsSpace s).reverse) := by
    simp [pyLower]
  rw [h1, dropWhile_pyLower]
  simp [pyLower]

theorem dropWhile_head?_not (p : Char → Bool) :
    ∀ (l : List Char) (c : Char), (List.dropWhile p l).head? = some c → p c = false := by
  intro l
  induction l with
  | nil => intro c h; simp at h
  | cons a t ih =>
    intro c h
    rw [List.dropWhile_cons] at h
    split at h
    · exact ih c h
    · simp only [List.head?_cons, Option.some.injEq] at h
      subst h
      simpa using ‹¬p a = true›

theorem getLast?_dropWhile (p : Char → Bool) :
    ∀ l : List Char,
      List.dropWhile p l = [] ∨ (List.dropWhile p l).getLast? = l.getLast? := by
  intro l
  induction l with
  | nil => left; rfl
  | cons a t ih =>
    rw [List.dropWhile_cons]
    split
    · rcases ih with h | h
      · left; exact h
      · cases t with
        | nil => left; rfl
        | cons b t' => right; rw [h, List.getLast?_cons_cons]
    · right; rfl

theorem dropWhile_eq_self_of_head (p : Char → Bool) (l : List Char)
    (h : ∀ c, l.head? = some c → p c = false) : List.dropWhile p l = l := by
  cases l with
  | nil => rfl
  | cons a t =>
    rw [List.dropWhile_cons, if_neg]
    simp [h a rfl]

theorem pyStrip_eq_self (s : List Char)
    (h1 : ∀ c, s.head? = some c → pyIsSpace c = false)
    (h2 : ∀ c, s.getLast? = some c → pyIsSpace c = false) : pyStrip s = s := by
  unfold pyStrip
  rw [dropWhile_eq_self_of_head _ _ h1,
    dropWhile_eq_self_of_head _ _ (by
      intro c hc
      rw [List.head?_reverse] at hc
      exact h2 c hc),
    List.reverse_reverse]

theorem pyStrip_head?_not (s : List Char) (c : Char) (h : (pyStrip s).head? = some c) :
    pyIsSpace c = false := by
  unfold pyStrip at h
  rw [List.head?_reverse] at h
  rcases getLast?_dropWhile pyIsSpace (List.dropWhile pyIsSpace s).reverse with he | he
  · rw [he] at h; simp at h
  · rw [he, List.getLast?_reverse] at h
    exact dropWhile_head?_not pyIsSpace s c h

theorem pyStrip_getLast?_not (s : List Char) (c : Char) (h : (pyStrip s).getLast? = some c) :
    pyIsSpace c = false := by
  unfold pyStrip at h
  rw [List.getLast?_reverse] at h
  exact dropWhile_head?_not pyIsSpace _ c h

theorem pyStrip_idem (s : List Char) : pyStrip (pyStrip s) = pyStrip s :=
  pyStrip_eq_self _ (pyStrip_head?_not s) (pyStrip_getLast?_not s)

theorem dropWhile_all_not (p : Char → Bool) (l : List Char)
    (h : ∀ c ∈ l, p c = false) : List.dropWhile p l = l := by
  cases l with
  | nil => rfl
  | cons a t =>
    rw [List.dropWhile_cons, if_neg]
    simp [h a (List.mem_cons_self a t)]

theorem pyStrip_of_all_not_ws (l : List Char) (h : ∀ c ∈ l, pyIsSpace c = false) :
    pyStrip l = l := by
  unfold pyStrip
  rw [dropWhile_all_not _ _ h, dropWhile_all_not, List.reverse_reverse]
  intro c hc
  exact h c (List.mem_reverse.mp hc)

theorem mem_of_mem_dropWhile (p : Char → Bool) (l : List Char) (c : Char)
    (h : c ∈ List.dropWhile p l) : c ∈ l := by
  have heq := List.takeWhile_append_dropWhile p l
  rw [← heq]
  exact List.mem_append_right _ h

theorem mem_of_mem_pyStrip (s : List Char) (c : Char) (h : c ∈ pyStrip s) : c ∈ s := by
  unfold pyStrip at h
  rw [List.mem_reverse] at h
  have := mem_of_mem_dropWhile _ _ _ h
  rw [List.mem_reverse] at this
  exact mem_of_mem_dropWhile _ _ _ this

theorem mem_dropWhile_of_not (p : Char → Bool) (l : List Char) (c : Char)
    (hc : c ∈ l) (hp : p c = false) : c ∈ List.dropWhile p l := by
  rcases List.mem_append.mp
    (by rw [List.takeWhile_append_dropWhile p l]; exact hc :
      c ∈ List.takeWhile p l ++ List.dropWhile p l) with h | h
  · exact absurd (List.mem_takeWhile_imp h) (by simp [hp])
  · exact h

theorem mem_pyStrip_of_not_ws (s : List Char) (c : Char) (hc : c ∈ s)
    (hp : pyIsSpace c = false) : c ∈ pyStrip s := by
  unfold pyStrip
  rw [List.mem_reverse]
  exact mem_dropWhile_of_not _ _ _ (List.mem_reverse.mpr (mem_dropWhile_of_not _ _ _ hc hp)) hp

/-! ### Deduplication lemmas -/

theorem dedup_go_subset :
    ∀ (l seen : List (List Char)) (x : List Char), x ∈ dedupKeepFirst.go seen l → x ∈ l := by
  intro l
  induction l with
  | nil => intro seen x h; simp [dedupKeepFirst.go] at h
  | cons a t ih =>
    intro seen x h
    rw [dedupKeepFirst.go] at h
    split at h
    · exact List.mem_cons_of_mem a (ih seen x h)
    · rcases List.mem_cons.mp h with rfl | h
      · exact List.mem_cons_self _ _
      · exact List.mem_cons_of_mem a (ih _ x h)

theorem dedup_go_spec :
    ∀ (l seen : List (List Char)),
      (dedupKeepFirst.go seen l).Nodup ∧ ∀ x ∈ dedupKeepFirst.go seen l, x ∉ seen := by
  intro l
  induction l with
  | nil =>
    intro seen
    refine ⟨by simp [dedupKeepFirst.go], ?_⟩
    intro x h
    simp [dedupKeepFirst.go] at h
  | cons a t ih =>
    intro seen
    rw [dedupKeepFirst.go]
    split
    · exact ih seen
    · rename_i hsee
      refine ⟨List.nodup_cons.mpr ⟨fun hmem => ?_, (ih (a :: seen)).1⟩, ?_⟩
      · exact ((ih (a :: seen)).2 a hmem) (List.mem_cons_self _ _)
      · intro x hx
        rcases List.mem_cons.mp hx with rfl | hx
        · intro hxs
          exact hsee (by simpa using hxs)
        · intro hxs
          exact (ih (a :: seen)).2 x hx (List.mem_cons_of_mem a hxs)

theorem dedupKeepFirst_nodup (l : List (List Char)) : (dedupKeepFirst l).Nodup :=
  (dedup_go_spec l []).1

theorem mem_of_mem_dedupKeepFirst (l : List (List Char)) (x : List Char)
    (h : x ∈ dedupKeepFirst l) : x ∈ l :=
  dedup_go_subset l [] x h

/-! ### Soundness of the regex engine

Whatever a run consumes splits the input, consumed characters come from the
regex's classes and literals, and captured characters come from the classes
inside the corresponding group. -/

theorem head?_mem {α : Type} {l : List α} {x : α} (h : l.head? = some x) : x ∈ l := by
  cases l with
  | nil => simp at h
  | cons a t =>
    simp only [List.head?_cons, Option.some.injEq] at h
    subst h
    exact List.mem_cons_self _ _

theorem mrun_spec :
    ∀ (f : Nat) (e : RE) (prev : Option Char) (s : List Char) (r : MRes),
      r ∈ mrun f e prev s →
      r.1 ++ r.2.1 = s ∧ (∀ c ∈ r.1, c ∈ reCharList e) ∧
        (∀ p ∈ r.2.2, ∀ c ∈ p.2, c ∈ grpCharList e p.1) := by
  intro f
  induction f with
  | zero =>
    intro e prev s r h
    simp [mrun] at h
  | succ f ih =>
    intro e prev s r h
    cases e with
    | eps =>
      simp only [mrun, List.mem_singleton] at h
      subst h
      exact ⟨rfl, by simp, by simp⟩
    | wb =>
      simp only [mrun] at h
      split at h
      · simp only [List.mem_singleton] at h
        subst h
        exact ⟨rfl, by simp, by simp⟩
      · simp at h
    | cls p =>
      cases s with
      | nil => simp [mrun] at h
      | cons c rest =>
        simp only [mrun] at h
        split at h
        · simp only [List.mem_singleton] at h
          subst h
          refine ⟨rfl, ?_, by simp⟩
          intro d hd
          rcases List.mem_singleton.mp hd with rfl
          simpa [reCharList] using ‹p.contains d = true›
        · simp at h
    | lit a =>
      cases s with
      | nil => simp [mrun] at h
      | cons c rest =>
        simp only [mrun] at h
        split at h
        · simp only [List.mem_singleton] at h
          subst h
          refine ⟨rfl, ?_, by simp⟩
          intro d hd
          rcases List.mem_singleton.mp hd with rfl
          have : d = a := by simpa using ‹(d == a) = true›
          simp [reCharList, this]
        · simp at h
    | seq a b =>
      simp only [mrun, List.mem_flatMap, List.mem_map] at h
      obtain ⟨r₁, h₁, r₂, h₂, hr⟩ := h
      obtain ⟨hs₁, hc₁, hg₁⟩ := ih a prev s r₁ h₁
      obtain ⟨hs₂, hc₂, hg₂⟩ := ih b (lastOf prev r₁.1) r₁.2.1 r₂ h₂
      subst hr
      refine ⟨?_, ?_, ?_⟩
      · simp only
        rw [List.append_assoc, hs₂, hs₁]
      · intro c hc
        rcases List.mem_append.mp hc with hc | hc
        · exact List.mem_append_left _ (hc₁ c hc)
        · exact List.mem_append_right _ (hc₂ c hc)
      · intro p hp c hc
        rcases List.mem_append.mp hp with hp | hp
        · exact List.mem_append_left _ (hg₁ p hp c hc)
        · exact List.mem_append_right _ (hg₂ p hp c hc)
    | alt a b =>
      simp only [mrun, List.mem_append] at h
      rcases h with h | h
      · obtain ⟨hs, hc, hg⟩ := ih a prev s r h
        refine ⟨hs, ?_, ?_⟩
        · intro c hcm; exact List.mem_append_left _ (hc c hcm)
        · intro p hp c hcm; exact List.mem_append_left _ (hg p hp c hcm)
      · obtain ⟨hs, hc, hg⟩ := ih b prev s r h
        refine ⟨hs, ?_, ?_⟩
        · intro c hcm; exact List.mem_append_right _ (hc c hcm)
        · intro p hp c hcm; exact List.mem_append_right _ (hg p hp c hcm)
    | star a =>
      simp only [mrun, List.mem_append, List.mem_flatMap] at h
      rcases h with ⟨r₁, h₁, h⟩ | h
      · split at h
        · simp only [List.mem_map] at h
          obtain ⟨r₂, h₂, hr⟩ := h
          obtain ⟨hs₁, hc₁, hg₁⟩ := ih a prev s r₁ h₁
          obtain ⟨hs₂, hc₂, hg₂⟩ := ih (.star a) (lastOf prev r₁.1) r₁.2.1 r₂ h₂
          subst hr
          refine ⟨?_, ?_, ?_⟩
          · simp only
            rw [List.append_assoc, hs₂, hs₁]
          · intro c hc
            rcases List.mem_append.mp hc with hc | hc
            · exact hc₁ c hc
            · exact hc₂ c hc
          · intro p hp c hc
            rcases List.mem_append.mp hp with hp | hp
            · exact hg₁ p hp c hc
            · exact hg₂ p hp c hc
        · simp at h
      · simp only [List.mem_singleton] at h
        subst h
        exact ⟨rfl, by simp, by simp⟩
    | grp i a =>
      simp only [mrun, List.mem_map] at h
      obtain ⟨r₁, h₁, hr⟩ := h
      obtain ⟨hs₁, hc₁, hg₁⟩ := ih a prev s r₁ h₁
      subst hr
      refine ⟨hs₁, hc₁, ?_⟩
      intro p hp c hc
      rcases List.mem_cons.mp hp with rfl | hp
      · simp only [grpCharList, if_pos rfl]
        exact List.mem_append_left _ (hc₁ c hc)
      · simp only [grpCharList]
        exact List.mem_append_right _ (hg₁ p hp c hc)

theorem firstMatch_spec (e : RE) (prev : Option Char) (s : List Char) (r : MRes)
    (h : firstMatch e prev s = some r) :
    (∀ c ∈ r.1, c ∈ reCharList e) ∧
      (∀ p ∈ r.2.2, ∀ c ∈ p.2, c ∈ grpCharList e p.1) := by
  have hm := head?_mem h
  obtain ⟨_, hc, hg⟩ := mrun_spec (fuelFor e s) e prev s r hm
  exact ⟨hc, hg⟩

theorem findAllAux_spec :
    ∀ (f : Nat) (e : RE) (prev : Option Char) (s : List Char)
      (m : List Char × List (Nat × List Char)),
      m ∈ findAllAux f e prev s →
      (∀ c ∈ m.1, c ∈ reCharList e) ∧
        (∀ p ∈ m.2, ∀ c ∈ p.2, c ∈ grpCharList e p.1) := by
  intro f
  induction f with
  | zero =>
    intro e prev s m h
    simp [findAllAux] at h
  | succ f ih =>
    intro e prev s m h
    cases s with
    | nil =>
      simp only [findAllAux] at h
      split at h
      · simp only [List.mem_singleton] at h
        subst h
        exact firstMatch_spec e prev [] _ ‹_›
      · simp at h
    | cons c rest =>
      simp only [findAllAux] at h
      split at h
      · exact ih e (some c) rest m h
      · rename_i r hr
        split at h
        · rcases List.mem_cons.mp h with rfl | h
          · exact firstMatch_spec e prev (c :: rest) r hr
          · exact ih e (some c) rest m h
        · rcases List.mem_cons.mp h with rfl | h
          · exact firstMatch_spec e prev (c :: rest) r hr
          · exact ih e (lastOf prev r.1) r.2.1 m h

theorem findAll_spec (e : RE) (s : List Char) (m : List Char × List (Nat × List Char))
    (h : m ∈ findAll e s) :
    (∀ c ∈ m.1, c ∈ reCharList e) ∧
      (∀ p ∈ m.2, ∀ c ∈ p.2, c ∈ grpCharList e p.1) :=
  findAllAux_spec (s.length + 1) e none s m h

theorem lookup_mem {β : Type} (i : Nat) (g : β) :
    ∀ caps : List (Nat × β), caps.lookup i = some g → (i, g) ∈ caps := by
  intro caps
  induction caps with
  | nil => intro h; simp [List.lookup] at h
  | cons kv t ih =>
    intro h
    obtain ⟨k, v⟩ := kv
    simp only [List.lookup] at h
    split at h
    · rename_i hk
      simp only [Option.some.injEq] at h
      have : i = k := by simpa using hk
      subst this
      subst h
      exact List.mem_cons_self _ _
    · exact List.mem_cons_of_mem _ (ih h)

/-! ### No character of a produced candidate is whitespace -/

set_option maxRecDepth 8192 in
theorem email_chars_not_ws : ∀ c ∈ reCharList emailRE, pyIsSpace c = false := by decide

set_option maxRecDepth 8192 in
theorem text_grp_not_ws :
    (∀ c ∈ grpCharList textRE 1, pyIsSpace c = false) ∧
      (∀ c ∈ grpCharList textRE 2, pyIsSpace c = false) ∧
      (∀ c ∈ grpCharList textRE 3, pyIsSpace c = false) := by decide

set_option maxRecDepth 8192 in
theorem spaced_grp_not_ws :
    (∀ c ∈ grpCharList spacedRE 1, pyIsSpace c = false) ∧
      (∀ c ∈ grpCharList spacedRE 2, pyIsSpace c = false) ∧
      (∀ c ∈ grpCharList spacedRE 3, pyIsSpace c = false) := by decide

set_option maxRecDepth 8192 in
theorem atdot_grp_not_ws :
    (∀ c ∈ grpCharList atdotRE 1, pyIsSpace c = false) ∧
      (∀ c ∈ grpCharList atdotRE 2, pyIsSpace c = false) ∧
      (∀ c ∈ grpCharList atdotRE 3, pyIsSpace c = false) := by decide

theorem capsEmail_not_ws (e : RE) (caps : List (Nat × List Char))
    (hg : ∀ p ∈ caps, ∀ c ∈ p.2, c ∈ grpCharList e p.1)
    (h1 : ∀ c ∈ grpCharList e 1, pyIsSpace c = false)
    (h2 : ∀ c ∈ grpCharList e 2, pyIsSpace c = false)
    (h3 : ∀ c ∈ grpCharList e 3, pyIsSpace c = false) :
    ∀ c ∈ capsEmail caps, pyIsSpace c = false := by
  intro c hc
  unfold capsEmail at hc
  rcases List.mem_append.mp hc with hc | hc
  · cases hl : caps.lookup 1 with
    | none => rw [hl] at hc; simp at hc
    | some g =>
      rw [hl] at hc
      exact h1 c (hg (1, g) (lookup_mem 1 g caps hl) c hc)
  · rcases List.mem_cons.mp hc with rfl | hc
    · decide
    · rcases List.mem_append.mp hc with hc | hc
      · cases hl : caps.lookup 2 with
        | none => rw [hl] at hc; simp at hc
        | some g =>
          rw [hl] at hc
          exact h2 c (hg (2, g) (lookup_mem 2 g caps hl) c hc)
      · rcases List.mem_cons.mp hc with rfl | hc
        · decide
        · cases hl : caps.lookup 3 with
          | none => rw [hl] at hc; simp at hc
          | some g =>
            rw [hl] at hc
            exact h3 c (hg (3, g) (lookup_mem 3 g caps hl) c hc)

/-- Every candidate the five extraction passes gather is free of whitespace
(they are regex matches over whitespace-free classes, or addresses assembled
from captured groups). -/
theorem gathered_not_ws (t c0 : List Char)
    (h : c0 ∈ (findAll emailRE t).map (·.1)
        ++ (findAll textRE t).map (fun m => capsEmail m.2)
        ++ (findAll spacedRE t).map (fun m => capsEmail m.2)
        ++ (if entityDecode t ≠ t then (findAll emailRE (entityDecode t)).map (·.1) else [])
        ++ (findAll atdotRE t).map (fun m => capsEmail m.2)) :
    ∀ ch ∈ c0, pyIsSpace ch = false := by
  simp only [List.mem_append] at h
  rcases h with ((((h | h) | h) | h) | h)
  · rw [List.mem_map] at h
    obtain ⟨m, hm, rfl⟩ := h
    intro ch hch
    exact email_chars_not_ws ch ((findAll_spec emailRE t m hm).1 ch hch)
  · rw [List.mem_map] at h
    obtain ⟨m, hm, rfl⟩ := h
    exact capsEmail_not_ws textRE m.2 (findAll_spec textRE t m hm).2
      text_grp_not_ws.1 text_grp_not_ws.2.1 text_grp_not_ws.2.2
  · rw [List.mem_map] at h
    obtain ⟨m, hm, rfl⟩ := h
    exact capsEmail_not_ws spacedRE m.2 (findAll_spec spacedRE t m hm).2
      spaced_grp_not_ws.1 spaced_grp_not_ws.2.1 spaced_grp_not_ws.2.2
  · split at h
    · rw [List.mem_map] at h
      obtain ⟨m, hm, rfl⟩ := h
      intro ch hch
      exact email_chars_not_ws ch ((findAll_spec emailRE (entityDecode t) m hm).1 ch hch)
    · simp at h
  · rw [List.mem_map] at h
    obtain ⟨m, hm, rfl⟩ := h
    exact capsEmail_not_ws atdotRE m.2 (findAll_spec atdotRE t m hm).2
      atdot_grp_not_ws.1 atdot_grp_not_ws.2.1 atdot_grp_not_ws.2.2

/-- Every element of `extract_emails t` is the lower-cased, stripped form of
a whitespace-free candidate longer than 5 characters. -/
theorem extract_emails_elem (t e : List Char) (he : e ∈ extract_emails t) :
    ∃ c0, e = pyStrip (pyLower c0) ∧ 5 < c0.length ∧
      ∀ ch ∈ c0, pyIsSpace ch = false := by
  simp only [extract_emails] at he
  split at he
  · simp at he
  · have he1 := mem_of_mem_dedupKeepFirst _ _ he
    rw [List.mem_map] at he1
    obtain ⟨c0, hc0, rfl⟩ := he1
    rw [List.mem_filter] at hc0
    obtain ⟨hc0m, hc0p⟩ := hc0
    have hc0g := mem_of_mem_dedupKeepFirst _ _ hc0m
    refine ⟨c0, rfl, ?_, gathered_not_ws t c0 hc0g⟩
    simp only [Bool.and_eq_true, decide_eq_true_eq] at hc0p
    exact hc0p.2

/-- C4: for every input text (including the empty string), `extract_emails`
returns a deduplicated set in which every element is lower-cased (a fixed
point of `pyLower`) and has length at least 6 characters. -/
theorem C4_extract_emails_invariants (t : List Char) :
    (extract_emails t).Nodup ∧
      ∀ e ∈ extract_emails t, pyLower e = e ∧ 6 ≤ e.length := by
  constructor
  · simp only [extract_emails]
    split
    · simp
    · exact dedupKeepFirst_nodup _
  · intro e he
    obtain ⟨c0, rfl, hlen, hnws⟩ := extract_emails_elem t e he
    have hlow : ∀ ch ∈ pyLower c0, pyIsSpace ch = false := by
      intro ch hch
      rw [pyLower, List.mem_map] at hch
      obtain ⟨d, hd, rfl⟩ := hch
      rw [asciiLower_isSpace]
      exact hnws d hd
    have hstrip : pyStrip (pyLower c0) = pyLower c0 := pyStrip_of_all_not_ws _ hlow
    constructor
    · rw [hstrip, pyLower_idem]
    · rw [hstrip, pyLower_length]
      omega

theorem C4_extract_emails_invariants_witness :
    pyLower "info@acme.com".data = "info@acme.com".data ∧
      6 ≤ "info@acme.com".data.length :=
  (C4_extract_emails_invariants "info@acme.com".data).2 "info@acme.com".data (by decide)

/-! ### C8: round-trip stability of `extract_emails` -/

set_option maxRecDepth 20000 in
/-- C8 counterexample: for the text `p@q .ab@b.cc|d`, extraction yields
exactly the addresses `ab@b.cc|d` and `p@q.ab`; re-extracting their
space-joined string additionally finds `ab@b.cc` (the spaced pattern now
matches a truncation of the first address, which the original text blocked),
so the round trip does not re-find the same set. -/
theorem C8_roundtrip_counterexample :
    extract_emails "p@q .ab@b.cc|d".data
        = ["ab@b.cc|d".data, "p@q.ab".data] ∧
      "ab@b.cc".data ∈ extract_emails (joinSpace (extract_emails "p@q .ab@b.cc|d".data)) ∧
      "ab@b.cc".data ∉ extract_emails "p@q .ab@b.cc|d".data ∧
      extract_emails (joinSpace (extract_emails "p@q .ab@b.cc|d".data))
        ≠ extract_emails "p@q .ab@b.cc|d".data := by
  refine ⟨by decide, by decide, by decide, by decide⟩

/-- C8 (amended): re-application is stable when extraction yields a single
address that re-extracts to itself (e.g. a plain `info@domain.tld`); in
general the round trip can find additional addresses, because the obfuscation
patterns may match across the boundary created by joining with spaces. -/
theorem C8_roundtrip_singleton (t e : List Char)
    (h1 : extract_emails t = [e]) (h2 : extract_emails e = [e]) :
    extract_emails (joinSpace (extract_emails t)) = extract_emails t := by
  rw [h1]
  show extract_emails e = [e]
  exact h2

theorem C8_roundtrip_singleton_witness :
    extract_emails "info@acme.com".data = ["info@acme.com".data] ∧
      extract_emails (joinSpace (extract_emails "info@acme.com".data))
        = extract_emails "info@acme.com".data :=
  ⟨by decide, C8_roundtrip_singleton "info@acme.com".data "info@acme.com".data
    (by decide) (by decide)⟩

/-! ### C10: validation is invariant under lower-casing and stripping -/

/-- C10: `is_valid_business_email` gives the same verdict on `e` and on the
lower-cased, whitespace-stripped form of `e`, because its first step performs
exactly that normalisation and the normalisation is idempotent. -/
theorem C10_normalize_invariant (e : List Char) :
    is_valid_business_email e = is_valid_business_email (pyStrip (pyLower e)) := by
  have key : pyStrip (pyLower (pyStrip (pyLower e))) = pyStrip (pyLower e) := by
    calc pyStrip (pyLower (pyStrip (pyLower e)))
        = pyLower (pyStrip (pyStrip (pyLower e))) := pyStrip_pyLower _
      _ = pyLower (pyStrip (pyLower e)) := by rw [pyStrip_idem]
      _ = pyStrip (pyLower (pyLower e)) := (pyStrip_pyLower _).symm
      _ = pyStrip (pyLower e) := by rw [pyLower_idem]
  simp only [is_valid_business_email, key]

/-! ### C1: priority ranking in `filter_valid_emails` -/

/-- C1 counterexample: `b@x.com` and `information@x.com` are both valid, the
local part of `information@x.com` starts with `info` while that of `b@x.com`
does not, yet `filter_valid_emails` keeps `b@x.com` first: prioritisation
requires the full `info@` marker (local part equal to the keyword), not a
local part merely starting with it. -/
theorem C1_startswith_counterexample :
    is_valid_business_email "b@x.com".data = true ∧
      is_valid_business_email "information@x.com".data = true ∧
      startsList "info".data (localPart "information@x.com".data) = true ∧
      startsList "info".data (localPart "b@x.com".data) = false ∧
      filter_valid_emails ["b@x.com".data, "information@x.com".data]
        = ["b@x.com".data, "information@x.com".data] := by
  refine ⟨by decide, by decide, by decide, by decide, by decide⟩

/-- C1 (amended): among valid candidates, the addresses that begin with one
of the full markers `info@`, `contact@`, `sales@`, `commercial@` (that is,
whose local part equals the keyword) are placed ahead of all others, with
relative order preserved in each block; in particular `info@x.com` comes
first among valid candidates `a@x.com, info@x.com, b@x.com`. -/
theorem C1_priority_partition :
    (∀ emails : List (List Char),
        filter_valid_emails emails
          = (emails.filter is_valid_business_email).filter hasPriorityMark
            ++ (emails.filter is_valid_business_email).filter
                (fun e => !hasPriorityMark e)) ∧
      filter_valid_emails ["a@x.com".data, "info@x.com".data, "b@x.com".data]
        = ["info@x.com".data, "a@x.com".data, "b@x.com".data] := by
  constructor
  · intro emails
    simp only [filter_valid_emails]
    split
    · rename_i hemp
      have hnil : emails.filter is_valid_business_email = [] := by
        simpa [List.isEmpty_iff] using hemp
      rw [hnil]
      rfl
    · simp [List.partition_eq_filter_filter, Function.comp]
  · decide

/-! ### C6: company-name patterns in `generate_common_patterns` -/

/-- C6 counterexample: for company name `mosaic ltd`, the code removes every
occurrence of each legal-entity token anywhere in the name (`sa` is deleted
from inside `mosaic`), so the prepended candidate is `moic@x.com`, not a
suffix-trimmed `mosaic@x.com`. -/
theorem C6_trim_counterexample :
    (generate_common_patterns "x.com".data "mosaic ltd".data).head?
        = some "moic@x.com".data ∧
      "mosaic@x.com".data ∉ generate_common_patterns "x.com".data "mosaic ltd".data := by
  refine ⟨by decide, by decide⟩

/-- C6 (amended): the name is lower-cased and stripped, then every occurrence
of each token `ltd, inc, llc, sa, sas, gmbh, ag` (in that order, anywhere in
the name, re-stripping after each) is removed; when the result is non-empty,
the dot-joined form and then the space-removed form are prepended ahead of
the generic-prefix list. -/
theorem C6_name_patterns (d n : List Char) (h1 : n.isEmpty = false)
    (h2 : (cleanCompanyName n).isEmpty = false) :
    generate_common_patterns d n
      = (pyReplace (cleanCompanyName n) " ".data ".".data ++ '@' :: pyStrip (pyLower d))
        :: (pyReplace (cleanCompanyName n) " ".data [] ++ '@' :: pyStrip (pyLower d))
        :: generate_common_patterns d [] := by
  have e1 : (!n.isEmpty) = true := by rw [h1]; rfl
  have e2 : (!(cleanCompanyName n).isEmpty) = true := by rw [h2]; rfl
  simp only [generate_common_patterns]
  rw [if_pos e1, if_pos e2]
  simp

theorem C6_name_patterns_witness :
    ("acme gmbh".data).isEmpty = false ∧
      generate_common_patterns "x.com".data "acme gmbh".data
        = "acme@x.com".data :: "acme@x.com".data
          :: generate_common_patterns "x.com".data [] := by
  refine ⟨by decide, ?_⟩
  rw [C6_name_patterns "x.com".data "acme gmbh".data (by decide) (by decide)]
  decide

/-! ### C7: the pattern fallback -/

theorem generate_nonempty (d n : List Char) :
    ∃ p rest, generate_common_patterns d n = p :: rest := by
  simp only [generate_common_patterns]
  split
  · split
    · exact ⟨_, _, rfl⟩
    · exact ⟨_, _, rfl⟩
  · exact ⟨_, _, rfl⟩

theorem find_email_no_scraped (d n : List Char) (whois : List Char → List (List Char))
    (p : List Char) (rest : List (List Char))
    (hp : generate_common_patterns (clean_domain d) n = p :: rest) :
    find_email_enhanced d n [] whois = (some p, "pattern".data) := by
  unfold find_email_enhanced
  simp only [List.find?_nil, hp]

/-- C7: with no scraped emails the finder falls back to pattern generation
without consulting the WHOIS layer (the result is independent of the
`whoisEmails` function): it returns the first generated pattern, and for
domain `acme.com` with no company name that first candidate is
`info@acme.com`. -/
theorem C7_pattern_fallback :
    (∀ whois : List Char → List (List Char),
        find_email_enhanced "acme.com".data "".data [] whois
          = (some "info@acme.com".data, "pattern".data)) ∧
      ∀ (d n : List Char) (whois : List Char → List (List Char)),
        ∃ p rest, generate_common_patterns (clean_domain d) n = p :: rest ∧
          find_email_enhanced d n [] whois = (some p, "pattern".data) := by
  constructor
  · intro whois
    obtain ⟨p, rest, hp⟩ := generate_nonempty (clean_domain "acme.com".data) "".data
    have hres := find_email_no_scraped "acme.com".data "".data whois p rest hp
    have hhead : p = "info@acme.com".data := by
      have : (generate_common_patterns (clean_domain "acme.com".data) "".data).head?
          = some "info@acme.com".data := by decide
      rw [hp] at this
      simpa using this
    rw [hres, hhead]
  · intro d n whois
    obtain ⟨p, rest, hp⟩ := generate_nonempty (clean_domain d) n
    exact ⟨p, rest, hp, find_email_no_scraped d n whois p rest hp⟩

/-! ### C9: what `scrape_website` can return -/

theorem mem_filter_valid (emails : List (List Char)) (e : List Char)
    (h : e ∈ filter_valid_emails emails) :
    is_valid_business_email e = true := by
  simp only [filter_valid_emails] at h
  split at h
  · simp at h
  · simp only [List.partition_eq_filter_filter] at h
    rcases List.mem_append.mp h with h | h
    · exact (List.mem_filter.mp (List.mem_filter.mp h).1).2
    · exact (List.mem_filter.mp (List.mem_filter.mp h).1).2

theorem get_best_valid (emails : List (List Char)) :
    get_best_email emails = [] ∨
      is_valid_business_email (get_best_email emails) = true := by
  cases hm : filter_valid_emails emails with
  | nil => left; simp [get_best_email, hm]
  | cons b t =>
    right
    have hb : get_best_email emails = b := by simp [get_best_email, hm]
    rw [hb]
    exact mem_filter_valid emails b (by rw [hm]; exact List.mem_cons_self b t)

theorem get_best_empty_of_invalid (emails : List (List Char))
    (h : ∀ e ∈ emails, is_valid_business_email e = false) : get_best_email emails = [] := by
  have hnil : emails.filter is_valid_business_email = [] :=
    List.filter_eq_nil_iff.mpr (fun a ha => by simp [h a ha])
  simp [get_best_email, filter_valid_emails, hnil]

theorem setUnion_mem (a b : List (List Char)) (x : List Char) (h : x ∈ setUnion a b) :
    x ∈ a ∨ x ∈ b := by
  unfold setUnion at h
  exact List.mem_append.mp (mem_of_mem_dedupKeepFirst _ _ h)

theorem visitPages_some_valid (pe : List Char → List (List Char)) :
    ∀ (pages : List (List Char)) (acc : List (List Char)) (b : List Char),
      (visitPages pe pages acc).2 = some b → is_valid_business_email b = true := by
  intro pages
  induction pages with
  | nil =>
    intro acc b h
    simp [visitPages] at h
  | cons u rest ih =>
    intro acc b h
    simp only [visitPages] at h
    split at h
    · exact ih _ b h
    · rename_i hne
      simp only [Option.some.injEq] at h
      subst h
      rcases get_best_valid (setUnion acc (pe u)) with he | hv
      · rw [he] at hne
        simp at hne
      · exact hv

theorem visitPages_none_invalid (pe : List Char → List (List Char)) :
    ∀ (pages : List (List Char)) (acc : List (List Char)),
      (∀ u ∈ pages, ∀ e ∈ pe u, is_valid_business_email e = false) →
      (∀ e ∈ acc, is_valid_business_email e = false) →
        (visitPages pe pages acc).2 = none ∧
          ∀ e ∈ (visitPages pe pages acc).1, is_valid_business_email e = false := by
  intro pages
  induction pages with
  | nil =>
    intro acc _ hacc
    exact ⟨by simp [visitPages], by simpa [visitPages] using hacc⟩
  | cons u rest ih =>
    intro acc hpe hacc
    have hacc' : ∀ e ∈ setUnion acc (pe u), is_valid_business_email e = false := by
      intro e he
      rcases setUnion_mem _ _ _ he with h | h
      · exact hacc e h
      · exact hpe u (List.mem_cons_self _ _) e h
    have hbest : get_best_email (setUnion acc (pe u)) = [] :=
      get_best_empty_of_invalid _ hacc'
    simp only [visitPages, hbest]
    simpa using ih (setUnion acc (pe u))
      (fun v hv => hpe v (List.mem_cons_of_mem _ hv)) hacc'

theorem scrape_empty_or_valid (pe : List Char → List (List Char)) (home : List Char)
    (soup : Option (List (List Char) × List (List Char))) :
    scrape_website pe home soup = [] ∨
      is_valid_business_email (scrape_website pe home soup) = true := by
  simp only [scrape_website]
  split
  · rename_i hb
    rcases get_best_valid (setUnion [] (pe home)) with he | hv
    · rw [he] at hb
      simp at hb
    · right
      exact hv
  · split
    · left
      rfl
    · rename_i cs as_
      split
      · rename_i b hr1
        right
        exact visitPages_some_valid pe _ _ b hr1
      · split
        · rename_i b hr2
          right
          exact visitPages_some_valid pe _ _ b hr2
        · left
          rfl

/-- C9: whenever `scrape_website` returns a non-empty string it satisfies
`is_valid_business_email` (it is the head of the filtered, priority-sorted
list `get_best_email` produced); and when every candidate on every visited
page (the homepage, the at most 2 contact pages and the at most 1 about
page) fails validation, the result is the empty string — also when the
homepage soup cannot be fetched. -/
theorem C9_scrape_validity :
    (∀ (pe : List Char → List (List Char)) (home : List Char)
        (soup : Option (List (List Char) × List (List Char))),
        scrape_website pe home soup ≠ [] →
          is_valid_business_email (scrape_website pe home soup) = true) ∧
      (∀ (pe : List Char → List (List Char)) (home : List Char),
        (∀ e ∈ pe home, is_valid_business_email e = false) →
          scrape_website pe home none = []) ∧
      ∀ (pe : List Char → List (List Char)) (home : List Char)
        (cs as_ : List (List Char)),
        (∀ e ∈ pe home, is_valid_business_email e = false) →
        (∀ u ∈ cs.take 2, ∀ e ∈ pe u, is_valid_business_email e = false) →
        (∀ u ∈ as_.take 1, ∀ e ∈ pe u, is_valid_business_email e = false) →
          scrape_website pe home (some (cs, as_)) = [] := by
  have haccOf : ∀ (pe : List Char → List (List Char)) (home : List Char),
      (∀ e ∈ pe home, is_valid_business_email e = false) →
      ∀ e ∈ setUnion [] (pe home), is_valid_business_email e = false := by
    intro pe home hinv e he
    rcases setUnion_mem _ _ _ he with h | h
    · simp at h
    · exact hinv e h
  refine ⟨?_, ?_, ?_⟩
  · intro pe home soup hne
    rcases scrape_empty_or_valid pe home soup with h | h
    · exact absurd h hne
    · exact h
  · intro pe home hinv
    have hb0 : get_best_email (setUnion [] (pe home)) = [] :=
      get_best_empty_of_invalid _ (haccOf pe home hinv)
    simp [scrape_website, hb0]
  · intro pe home cs as_ hh hc ha
    have hacc0 := haccOf pe home hh
    have hb0 : get_best_email (setUnion [] (pe home)) = [] :=
      get_best_empty_of_invalid _ hacc0
    simp only [scrape_website, hb0]
    obtain ⟨h1n, h1i⟩ := visitPages_none_invalid pe (cs.take 2) _ hc hacc0
    obtain ⟨h2n, _⟩ := visitPages_none_invalid pe (as_.take 1) _ ha h1i
    simp [h1n, h2n]

theorem C9_scrape_validity_witness :
    is_valid_business_email
        (scrape_website (fun _ => ["info@x.com".data]) "http://x.com".data none) = true ∧
      scrape_website (fun _ => ["a@gmail.com".data]) "http://x.com".data
        (some (["http://x.com/contact".data], ["http://x.com/about".data])) = [] := by
  constructor
  · exact C9_scrape_validity.1 _ _ _ (by decide)
  · refine C9_scrape_validity.2.2 _ _ _ _ (by decide) ?_ ?_ <;>
      · intro u hu e he
        rcases List.mem_singleton.mp he with rfl
        decide

/-! ### C5: the fetch retry policy -/

theorem loop_request_count (f : Nat → FetchOutcome) :
    ∀ (rem i : Nat),
      ((get_page_soup_loop f i rem).2.count (FetchEvent.request true)) ≤ rem := by
  intro rem
  induction rem with
  | zero => intro i; simp [get_page_soup_loop]
  | succ r ih =>
    intro i
    cases hf : f i with
    | ok => simp [get_page_soup_loop, hf, List.count_cons]
    | timeout =>
      simp only [get_page_soup_loop, hf]
      have := ih (i + 1)
      simp [List.count_cons]
      omega
    | reqError =>
      simp only [get_page_soup_loop, hf]
      have := ih (i + 1)
      simp [List.count_cons]
      omega
    | sslError b =>
      cases b with
      | true => simp [get_page_soup_loop, hf, List.count_cons]
      | false =>
        simp only [get_page_soup_loop, hf]
        have := ih (i + 1)
        simp [List.count_cons]
        omega
    | otherError => simp [get_page_soup_loop, hf, List.count_cons]

theorem loop_all_fail (f : Nat → FetchOutcome)
    (h : ∀ j, f j = .timeout ∨ f j = .reqError) :
    ∀ (rem i : Nat), (get_page_soup_loop f i rem).1 = false := by
  intro rem
  induction rem with
  | zero => intro i; rfl
  | succ r ih =>
    intro i
    rcases h i with hf | hf <;> simp [get_page_soup_loop, hf, ih (i + 1)]

/-- C5 counterexample: when attempt 0 hits a TLS error whose verify-disabled
bypass also fails, the loop does not give up on the page: attempt 1 issues a
further verify-enabled request, which here succeeds, so a page is returned
after three requests.  Abandoning the page after the failed bypass would have
returned absence after two requests. -/
theorem C5_ssl_retry_counterexample :
    get_page_soup (fun i => if i = 0 then FetchOutcome.sslError false else .ok)
      = (true, [.request true, .request false, .request true]) := by decide

/-- C5 (amended): the fetch makes at most 3 loop attempts (at most 3
verify-enabled requests); a timeout or generic request error sleeps 2 seconds
and retries; a TLS error triggers one immediate verify-disabled retry, and if
that bypass also fails the loop merely moves on to the next attempt; any
other unexpected error aborts immediately; when every attempt fails the
function returns absence rather than raising. -/
theorem C5_fetch_policy :
    (∀ f : Nat → FetchOutcome,
        ((get_page_soup f).2.count (FetchEvent.request true)) ≤ 3) ∧
      (∀ (f : Nat → FetchOutcome) (i r : Nat), f i = .timeout →
        get_page_soup_loop f i (r + 1)
          = ((get_page_soup_loop f (i + 1) r).1,
              .request true :: .sleepSec 2 :: (get_page_soup_loop f (i + 1) r).2)) ∧
      (∀ (f : Nat → FetchOutcome) (i r : Nat), f i = .reqError →
        get_page_soup_loop f i (r + 1)
          = ((get_page_soup_loop f (i + 1) r).1,
              .request true :: .sleepSec 2 :: (get_page_soup_loop f (i + 1) r).2)) ∧
      (∀ (f : Nat → FetchOutcome) (i r : Nat), f i = .sslError true →
        get_page_soup_loop f i (r + 1) = (true, [.request true, .request false])) ∧
      (∀ (f : Nat → FetchOutcome) (i r : Nat), f i = .sslError false →
        get_page_soup_loop f i (r + 1)
          = ((get_page_soup_loop f (i + 1) r).1,
              .request true :: .request false :: (get_page_soup_loop f (i + 1) r).2)) ∧
      (∀ (f : Nat → FetchOutcome) (i r : Nat), f i = .otherError →
        get_page_soup_loop f i (r + 1) = (false, [.request true])) ∧
      ∀ f : Nat → FetchOutcome,
        (∀ j, f j = .timeout ∨ f j = .reqError) → (get_page_soup f).1 = false := by
  refine ⟨fun f => loop_request_count f 3 0, ?_, ?_, ?_, ?_, ?_,
    fun f h => loop_all_fail f h 3 0⟩
  all_goals intro f i r hf
  all_goals simp [get_page_soup_loop, hf]

theorem C5_fetch_policy_witness :
    get_page_soup_loop (fun _ => .timeout) 0 3
        = ((get_page_soup_loop (fun _ => .timeout) 1 2).1,
            .request true :: .sleepSec 2 :: (get_page_soup_loop (fun _ => .timeout) 1 2).2) ∧
      get_page_soup_loop (fun _ => .sslError false) 0 3
        = ((get_page_soup_loop (fun _ => .sslError false) 1 2).1,
            .request true :: .request false
              :: (get_page_soup_loop (fun _ => .sslError false) 1 2).2) ∧
      (get_page_soup (fun _ => .reqError)).1 = false :=
  ⟨C5_fetch_policy.2.1 _ 0 2 rfl, C5_fetch_policy.2.2.2.2.1 _ 0 2 rfl,
    C5_fetch_policy.2.2.2.2.2.2 _ (fun _ => Or.inr rfl)⟩

/-! ### C2: the page detector stays on the base URL's host -/

theorem fold_same_host (base : List Char) (kws : List (List Char)) :
    ∀ (links : List Link) (acc : List (List Char)),
      (∀ x ∈ acc, netloc x = netloc base) →
      ∀ u ∈ List.foldl (addFoundLink base kws) acc links, netloc u = netloc base := by
  intro links
  induction links with
  | nil =>
    intro acc hacc u hu
    simpa using hacc u (by simpa using hu)
  | cons lk rest ih =>
    intro acc hacc u hu
    rw [List.foldl_cons] at hu
    refine ih _ ?_ u hu
    intro x hx
    simp only [addFoundLink] at hx
    split at hx
    · split at hx
      · rename_i hcond
        rcases List.mem_append.mp hx with hx | hx
        · exact hacc x hx
        · rcases List.mem_singleton.mp hx with rfl
          have hsd : is_same_domain base (urljoinModel base lk.href) = true :=
            (Bool.and_eq_true _ _).mp hcond |>.1
          have : netloc base = netloc (urljoinModel base lk.href) := by
            simpa [is_same_domain] using hsd
          exact this.symm
      · exact hacc x hx
    · exact hacc x hx

theorem pages_same_host (links : List Link) (base : List Char) (kws : List (List Char)) :
    ∀ u ∈ find_pages_by_keywords links base kws, netloc u = netloc base := by
  intro u hu
  unfold find_pages_by_keywords at hu
  exact fold_same_host base kws links [] (by simp) u (List.mem_of_mem_take hu)

/-- C2 counterexample: the keyword `contact` matches an absolute `https` href
on the same host as the base `http` URL; the link is kept (the code compares
only `urlparse(...).netloc`), so the returned URL's scheme differs from the
base URL's scheme — the authority (scheme+host) equality in the claim fails,
only host equality holds. -/
theorem C2_scheme_counterexample :
    find_contact_pages [⟨"https://x.com/contact".data, "Contact".data⟩] "http://x.com".data
        = ["https://x.com/contact".data] ∧
      schemeOf "https://x.com/contact".data ≠ schemeOf "http://x.com".data := by
  refine ⟨by decide, by decide⟩

/-- C2 (amended): every URL returned by `find_contact_pages` or
`find_about_pages` resolves the matched href against the base URL and has the
same host (`urlparse` netloc) as the base URL; cross-host links are
discarded.  The scheme may differ from the base URL's. -/
theorem C2_same_host :
    (∀ (links : List Link) (base : List Char),
        ∀ u ∈ find_contact_pages links base, netloc u = netloc base) ∧
      ∀ (links : List Link) (base : List Char),
        ∀ u ∈ find_about_pages links base, netloc u = netloc base := by
  constructor
  · intro links base
    exact pages_same_host links base contactKeywords
  · intro links base
    exact pages_same_host links base aboutKeywords

theorem C2_same_host_witness :
    netloc "http://x.com/contact".data = netloc "http://x.com".data :=
  C2_same_host.1 [⟨"/contact".data, "Contact".data⟩] "http://x.com".data
    "http://x.com/contact".data (by decide)

/-! ### C3: the reversible-obfuscation decoder on malformed input -/

theorem hexDigitsRest_cons_none (acc : Nat) (d : Char) (t : List Char) (hd : d ≠ '_')
    (hv : hexVal d = none) : hexDigitsRest acc (d :: t) = none := by
  rw [hexDigitsRest.eq_def]
  split
  · rename_i h
    cases h
  · rename_i c rest h
    injection h with h1 h2
    exact absurd h1 hd
  · rename_i c rest h
    injection h with h1 h2
    subst h1
    rw [hv]

theorem hexDigitsRest_cons_some (acc : Nat) (d : Char) (t : List Char) (v : Nat)
    (hd : d ≠ '_') (hv : hexVal d = some v) :
    hexDigitsRest acc (d :: t) = hexDigitsRest (16 * acc + v) t := by
  rw [hexDigitsRest.eq_def]
  split
  · rename_i h
    cases h
  · rename_i c rest h
    injection h with h1 h2
    exact absurd h1 hd
  · rename_i c rest h
    injection h with h1 h2
    subst h1
    subst h2
    rw [hv]

theorem hexDigitsRest_us_none (acc : Nat) (d2 : Char) (t2 : List Char)
    (hv : hexVal d2 = none) : hexDigitsRest acc ('_' :: d2 :: t2) = none := by
  rw [hexDigitsRest.eq_def]
  simp [hv]

theorem hexDigitsRest_us_some (acc : Nat) (d2 : Char) (t2 : List Char) (v : Nat)
    (hv : hexVal d2 = some v) :
    hexDigitsRest acc ('_' :: d2 :: t2) = hexDigitsRest (16 * acc + v) t2 := by
  rw [hexDigitsRest.eq_def]
  simp [hv]

theorem hexDigitsRest_none (c : Char) (hv : hexVal c = none) (hu : c ≠ '_') :
    ∀ (l : List Char) (acc : Nat), c ∈ l → hexDigitsRest acc l = none := by
  suffices h : ∀ (n : Nat) (l : List Char) (acc : Nat),
      l.length ≤ n → c ∈ l → hexDigitsRest acc l = none from
    fun l acc hc => h l.length l acc le_rfl hc
  intro n
  induction n with
  | zero =>
    intro l acc hl hc
    cases l with
    | nil => simp at hc
    | cons d t => simp at hl
  | succ n ih =>
    intro l acc hl hc
    cases l with
    | nil => simp at hc
    | cons d t =>
      by_cases hd : d = '_'
      · subst hd
        cases t with
        | nil =>
          rcases List.mem_cons.mp hc with rfl | hc2
          · exact absurd rfl hu
          · simp at hc2
        | cons d2 t2 =>
          cases hvd : hexVal d2 with
          | none => exact hexDigitsRest_us_none acc d2 t2 hvd
          | some v =>
            rw [hexDigitsRest_us_some acc d2 t2 v hvd]
            rcases List.mem_cons.mp hc with rfl | hc2
            · exact absurd rfl hu
            · rcases List.mem_cons.mp hc2 with rfl | hc3
              · rw [hv] at hvd
                cases hvd
              · refine ih t2 _ ?_ hc3
                simp only [List.length_cons] at hl ⊢
                omega
      · cases hvd : hexVal d with
        | none => exact hexDigitsRest_cons_none acc d t hd hvd
        | some v =>
          rw [hexDigitsRest_cons_some acc d t v hd hvd]
          rcases List.mem_cons.mp hc with rfl | hc2
          · rw [hv] at hvd
            cases hvd
          · refine ih t _ ?_ hc2
            simp only [List.length_cons] at hl ⊢
            omega

theorem hexDigits_none (c : Char) (hv : hexVal c = none) (hu : c ≠ '_') :
    ∀ l : List Char, c ∈ l → hexDigits l = none := by
  intro l hc
  rw [hexDigits.eq_def]
  split
  · rfl
  · rfl
  · rename_i x d rest hne
    rcases List.mem_cons.mp hc with rfl | hc2
    · rw [hv]
    · cases hvd : hexVal d with
      | none => rfl
      | some v => exact hexDigitsRest_none c hv hu rest v hc2

theorem dropHexMark_mem (c : Char) (h0 : c ≠ '0') (hx : c ≠ 'x') (hX : c ≠ 'X')
    (hu : c ≠ '_') : ∀ l : List Char, c ∈ l → c ∈ dropHexMark l := by
  intro l hc
  unfold dropHexMark
  split
  · simp only [List.mem_cons] at hc
    rcases hc with rfl | rfl | rfl | hc
    · exact absurd rfl h0
    · exact absurd rfl hx
    · exact absurd rfl hu
    · exact hc
  · simp only [List.mem_cons] at hc
    rcases hc with rfl | rfl | hc
    · exact absurd rfl h0
    · exact absurd rfl hx
    · exact hc
  · simp only [List.mem_cons] at hc
    rcases hc with rfl | rfl | rfl | hc
    · exact absurd rfl h0
    · exact absurd rfl hX
    · exact absurd rfl hu
    · exact hc
  · simp only [List.mem_cons] at hc
    rcases hc with rfl | rfl | hc
    · exact absurd rfl h0
    · exact absurd rfl hX
    · exact hc
  · exact hc

theorem pyIntHex_none_of_bad (s : List Char) (c : Char) (hcs : c ∈ s)
    (hbad : intHexAcceptable c = false) : pyIntHex s = none := by
  have hhex : hexVal c = none := by
    cases hv : hexVal c with
    | none => rfl
    | some v => simp [intHexAcceptable, hv] at hbad
  have hws : pyIsSpace c = false := by
    cases hw : pyIsSpace c with
    | false => rfl
    | true => simp [intHexAcceptable, hw] at hbad
  have hplus : c ≠ '+' := by
    intro h
    subst h
    exact absurd hbad (by decide)
  have hminus : c ≠ '-' := by
    intro h
    subst h
    exact absurd hbad (by decide)
  have hunder : c ≠ '_' := by
    intro h
    subst h
    exact absurd hbad (by decide)
  have hxl : c ≠ 'x' := by
    intro h
    subst h
    exact absurd hbad (by decide)
  have hxu : c ≠ 'X' := by
    intro h
    subst h
    exact absurd hbad (by decide)
  have h0 : c ≠ '0' := by
    intro h
    subst h
    exact absurd hhex (by decide)
  have hstrip : c ∈ pyStrip s := mem_pyStrip_of_not_ws s c hcs hws
  unfold pyIntHex
  split
  · rename_i rest heq
    rw [heq] at hstrip
    rcases List.mem_cons.mp hstrip with rfl | hm
    · exact absurd rfl hplus
    · rw [hexDigits_none c hhex hunder _ (dropHexMark_mem c h0 hxl hxu hunder rest hm)]
      rfl
  · rename_i rest heq
    rw [heq] at hstrip
    rcases List.mem_cons.mp hstrip with rfl | hm
    · exact absurd rfl hminus
    · rw [hexDigits_none c hhex hunder _ (dropHexMark_mem c h0 hxl hxu hunder rest hm)]
      rfl
  · rw [hexDigits_none c hhex hunder _ (dropHexMark_mem c h0 hxl hxu hunder _ hstrip)]
    rfl

theorem decodeChunks_none (r : Int) :
    ∀ chunks : List (List Char),
      (∃ ch ∈ chunks, pyIntHex ch = none) → decodeChunks r chunks = none := by
  intro chunks
  induction chunks with
  | nil =>
    intro h
    simp at h
  | cons ch rest ih =>
    intro h
    obtain ⟨ch', hm, hn⟩ := h
    rcases List.mem_cons.mp hm with rfl | hm2
    · simp [decodeChunks, hn]
    · simp only [decodeChunks]
      cases hi : pyIntHex ch with
      | none => simp [hi]
      | some v => simp [hi, ih ⟨ch', hm2, hn⟩]

theorem chunksOf2_cover (c : Char) :
    ∀ l : List Char, c ∈ l → ∃ ch ∈ chunksOf2 l, c ∈ ch := by
  intro l
  induction l using chunksOf2.induct with
  | case1 =>
    intro h
    simp at h
  | case2 a =>
    intro h
    exact ⟨[a], by simp [chunksOf2], by simpa using h⟩
  | case3 a b rest ih =>
    intro h
    simp only [chunksOf2]
    rcases List.mem_cons.mp h with rfl | h
    · exact ⟨[c, b], List.mem_cons_self _ _, List.mem_cons_self _ _⟩
    · rcases List.mem_cons.mp h with rfl | h
      · exact ⟨[a, c], List.mem_cons_self _ _, by simp⟩
      · obtain ⟨ch, hch, hcc⟩ := ih h
        exact ⟨ch, List.mem_cons_of_mem _ hch, hcc⟩

/-- C3 counterexample: the odd-length all-hex input `41424` does not yield
the empty string — the trailing single digit `4` is parsed as its own chunk
(`int('4', 16)` succeeds), so the decoder returns the two code points
`3` and `69`.  A space is a non-hexadecimal character, yet `41 1` decodes to
`[64]` because Python's `int` ignores surrounding whitespace in a chunk. -/
theorem C3_odd_length_counterexample :
    decode_cloudflare_email "41424".data = [3, 69] ∧
      decode_cloudflare_email "41424".data ≠ [] ∧
      decode_cloudflare_email "41 1".data = [64] := by
  refine ⟨by decide, by decide, by decide⟩

/-- C3 (amended): the decoder is total (the bare `except` turns every parse
or `chr` failure into the empty string, so no exception escapes), and any
input containing a character that `int(s, 16)` cannot accept (not a hex
digit, whitespace, sign, base marker or underscore) yields the empty string.
Odd length alone is not malformed: the final one-character chunk is decoded. -/
theorem C3_bad_char_empty (s : List Char) (h : ∃ c ∈ s, intHexAcceptable c = false) :
    decode_cloudflare_email s = [] := by
  obtain ⟨c, hcs, hbad⟩ := h
  unfold decode_cloudflare_email
  have hsplit : c ∈ s.take 2 ++ s.drop 2 := by
    rw [List.take_append_drop 2 s]
    exact hcs
  rcases List.mem_append.mp hsplit with hc | hc
  · rw [pyIntHex_none_of_bad _ c hc hbad]
  · cases hr : pyIntHex (s.take 2) with
    | none => rfl
    | some r =>
      obtain ⟨ch, hch, hcch⟩ := chunksOf2_cover c (s.drop 2) hc
      simp [decodeChunks_none r _ ⟨ch, hch, pyIntHex_none_of_bad ch c hcch hbad⟩]

theorem C3_bad_char_empty_witness :
    decode_cloudflare_email "zz12".data = [] :=
  C3_bad_char_empty "zz12".data ⟨'z', by decide, by decide⟩

end EmailScraper
